import Mathlib

set_option maxHeartbeats 1000000

/-!
Verification development for the `baf_utils` dispatch engine of the
`fmi-basel/gfriedri-brainmaps-api` repository.

The embedding covers, from `src/baf_utils/utils.py`:
  `to_tuple`, `to_key`;
and from `src/baf_utils/concurrent_request_rate_limited.py`:
  the worker result recording of `ThreadWithReturn.run`, the maps cleanup
  `RateLimitedRequestsThreadPool.cleanup_response_data` and
  `_flatten_batch_responses`, the batch-size policy `determine_batch_size`
  together with the rolling deque of request durations, the feeder loop
  `_extend_queue`, the bounded `data_queue` capacity from `__init__`, and
  the round-based retry driver `run_pool`.

Modelling choices (documented once here):
  * Python values relevant to these functions are modelled by `PyVal`:
    integers, strings, tuples and lists.  `isinstance(x, Hashable)` is a
    *type-based* test in Python (a `tuple` passes even when it contains a
    `list`), which `PyVal.isHashableType` mirrors.
  * Python `dict`s (insertion ordered, `update` overwrites in place) are
    modelled as association lists `List (PyVal × V)` with `dUpdate`.
  * Machine floats of the latency window and of `Nrequests / period` are
    modelled exactly by `ℚ`; Python 3 `round` (round-half-to-even) is
    `pyRound`.
  * The concurrent parts are modelled by their sequential observable
    behaviour: each batch placed on the queue is processed exactly once by
    some worker and recorded under its canonical key; the per-tick batch
    size decisions of the feeder (which in the source depend on the
    concurrently mutated duration window) are supplied as an explicit list
    of decisions; a blocking `queue.Queue.put` is a `qput` that returns
    `none` when the bounded queue is full.
-/

/-- A Python value as handled by `baf_utils`: an int, a string, a tuple or a
list.  These are the shapes the repository feeds through `to_key`. -/
inductive PyVal : Type
  | int : Int → PyVal
  | str : String → PyVal
  | tuple : List PyVal → PyVal
  | list : List PyVal → PyVal

mutual
def pyValDecEq : (a b : PyVal) → Decidable (a = b)
  | .int m, .int n =>
      match decEq m n with
      | isTrue h => isTrue (by rw [h])
      | isFalse h => isFalse (by intro hh; cases hh; exact h rfl)
  | .int _, .str _ => isFalse (by intro h; cases h)
  | .int _, .tuple _ => isFalse (by intro h; cases h)
  | .int _, .list _ => isFalse (by intro h; cases h)
  | .str _, .int _ => isFalse (by intro h; cases h)
  | .str s, .str t =>
      match decEq s t with
      | isTrue h => isTrue (by rw [h])
      | isFalse h => isFalse (by intro hh; cases hh; exact h rfl)
  | .str _, .tuple _ => isFalse (by intro h; cases h)
  | .str _, .list _ => isFalse (by intro h; cases h)
  | .tuple _, .int _ => isFalse (by intro h; cases h)
  | .tuple _, .str _ => isFalse (by intro h; cases h)
  | .tuple xs, .tuple ys =>
      match pyValListDecEq xs ys with
      | isTrue h => isTrue (by rw [h])
      | isFalse h => isFalse (by intro hh; cases hh; exact h rfl)
  | .tuple _, .list _ => isFalse (by intro h; cases h)
  | .list _, .int _ => isFalse (by intro h; cases h)
  | .list _, .str _ => isFalse (by intro h; cases h)
  | .list _, .tuple _ => isFalse (by intro h; cases h)
  | .list xs, .list ys =>
      match pyValListDecEq xs ys with
      | isTrue h => isTrue (by rw [h])
      | isFalse h => isFalse (by intro hh; cases hh; exact h rfl)

def pyValListDecEq : (xs ys : List PyVal) → Decidable (xs = ys)
  | [], [] => isTrue rfl
  | [], _ :: _ => isFalse (by intro h; cases h)
  | _ :: _, [] => isFalse (by intro h; cases h)
  | x :: xs, y :: ys =>
      match pyValDecEq x y, pyValListDecEq xs ys with
      | isTrue h1, isTrue h2 => isTrue (by rw [h1, h2])
      | isFalse h1, _ => isFalse (by intro hh; injection hh with h1' h2'; exact h1 h1')
      | isTrue _, isFalse h2 => isFalse (by intro hh; injection hh with h1' h2'; exact h2 h2')
end

instance : DecidableEq PyVal := pyValDecEq

/-- Python's `isinstance(item, Hashable)`: a type-level test.  `tuple` has a
`__hash__` slot, so any tuple passes, even a tuple containing a list. -/
def PyVal.isHashableType : PyVal → Bool
  | .int _ => true
  | .str _ => true
  | .tuple _ => true
  | .list _ => false

/-- Python's `isinstance(item, str)`. -/
def PyVal.isStr : PyVal → Bool
  | .str _ => true
  | _ => false

/-- Python's `isinstance(item, Iterable)`. -/
def PyVal.isIterable : PyVal → Bool
  | .int _ => false
  | .str _ => true
  | .tuple _ => true
  | .list _ => true

/-- Iteration order of a Python value: tuple/list elements, characters of a
string (as one-character strings); iterating an int raises in Python and is
never reached by the embedded code. -/
def PyVal.elems : PyVal → List PyVal
  | .int _ => []
  | .str s => s.data.map (fun c => PyVal.str (String.mk [c]))
  | .tuple xs => xs
  | .list xs => xs

mutual
/-- Whether `hash(v)` would actually succeed in Python: a tuple is hashable
only when all of its elements are. -/
def actuallyHashable : PyVal → Bool
  | .int _ => true
  | .str _ => true
  | .tuple xs => actuallyHashableList xs
  | .list _ => false

def actuallyHashableList : List PyVal → Bool
  | [] => true
  | x :: xs => actuallyHashable x && actuallyHashableList xs
end

mutual
/-- The element transformation of `utils.to_tuple`:
`to_tuple(i) if isinstance(i, Iterable) and not isinstance(i, str) else i`.
Ints and strings are kept, tuples and lists are converted deeply. -/
def to_tuple_conv : PyVal → PyVal
  | .int n => .int n
  | .str s => .str s
  | .tuple xs => .tuple (to_tuple_list xs)
  | .list xs => .tuple (to_tuple_list xs)

def to_tuple_list : List PyVal → List PyVal
  | [] => []
  | x :: xs => to_tuple_conv x :: to_tuple_list xs
end

/-- `utils.to_tuple(lst)`: convert every element of the iterable `lst` with
the rule above and return the results as a tuple. -/
def to_tuple (lst : PyVal) : PyVal := PyVal.tuple (to_tuple_list lst.elems)

/-- `utils.to_key(item)`: return `item` unchanged when its type is hashable,
otherwise convert the (then necessarily iterable) value with `to_tuple`.
The `RuntimeError` branch of the source is unreachable on `PyVal`: every
non-hashable `PyVal` (a list) is iterable, matching the source comment that
the branch "should not occur". -/
def to_key (item : PyVal) : PyVal :=
  if item.isHashableType then item else to_tuple item

theorem to_tuple_list_eq_map (xs : List PyVal) :
    to_tuple_list xs = xs.map to_tuple_conv := by
  induction xs with
  | nil => rfl
  | cons x xs ih => simp [to_tuple_list, ih]

mutual
theorem actuallyHashable_to_tuple_conv (v : PyVal) :
    actuallyHashable (to_tuple_conv v) = true := by
  cases v with
  | int n => rfl
  | str s => rfl
  | tuple xs => simpa [to_tuple_conv, actuallyHashable] using
      actuallyHashableList_to_tuple_list xs
  | list xs => simpa [to_tuple_conv, actuallyHashable] using
      actuallyHashableList_to_tuple_list xs

theorem actuallyHashableList_to_tuple_list (xs : List PyVal) :
    actuallyHashableList (to_tuple_list xs) = true := by
  cases xs with
  | nil => rfl
  | cons x xs => simp [to_tuple_list, actuallyHashableList,
      actuallyHashable_to_tuple_conv x, actuallyHashableList_to_tuple_list xs]
end

theorem to_key_of_hashableType (a : PyVal) (h : a.isHashableType = true) :
    to_key a = a := by
  simp [to_key, h]

theorem to_key_list_eq_conv (xs : List PyVal) :
    to_key (PyVal.list xs) = to_tuple_conv (PyVal.list xs) := by
  simp [to_key, PyVal.isHashableType, to_tuple, PyVal.elems, to_tuple_conv]

/-- Claim C9: `to_key` is idempotent (`to_key (to_key a) = to_key a`) and
deterministic (being a pure function of its argument, repeated calls return
equal keys). -/
theorem c9_to_key_idempotent :
    ∀ a : PyVal, to_key (to_key a) = to_key a ∧ to_key a = to_key a := by
  intro a
  refine ⟨?_, rfl⟩
  cases a with
  | int n => rfl
  | str s => rfl
  | tuple xs => rfl
  | list xs =>
      rw [to_key_list_eq_conv]
      simp [to_tuple_conv, to_key, PyVal.isHashableType]

/-- Claim C7 counterexample: the tuple `([1],)` is of hashable *type*, so
`to_key` returns it unchanged, yet `hash` on it would fail (it contains a
list) — the returned key is not actually hashable.  Moreover the
structurally equal argument `[[1]]` (same shape, list instead of tuple at
the top) is mapped to a different key. -/
theorem c7_counterexample :
    to_key (PyVal.tuple [PyVal.list [PyVal.int 1]])
        = PyVal.tuple [PyVal.list [PyVal.int 1]]
      ∧ actuallyHashable (to_key (PyVal.tuple [PyVal.list [PyVal.int 1]])) = false
      ∧ to_tuple_conv (PyVal.tuple [PyVal.list [PyVal.int 1]])
        = to_tuple_conv (PyVal.list [PyVal.list [PyVal.int 1]])
      ∧ to_key (PyVal.tuple [PyVal.list [PyVal.int 1]])
        ≠ to_key (PyVal.list [PyVal.list [PyVal.int 1]]) := by
  refine ⟨rfl, rfl, rfl, ?_⟩
  decide

/-- Claim C7 (amended): `to_key` returns the argument unchanged whenever its
*type* is hashable (so the result need not be actually hashable when a tuple
contains a list); a list — the only non-hashable shape — is recursively
converted into a tuple, strings kept atomic, and that result is actually
hashable; and two structurally equal arguments (equal after full
tuple-normalisation) receive equal keys provided each is either a list or
already fully normalised. -/
theorem c7_amended :
    (∀ a : PyVal, a.isHashableType = true → to_key a = a)
    ∧ (∀ xs : List PyVal,
        to_key (PyVal.list xs) = to_tuple_conv (PyVal.list xs)
        ∧ actuallyHashable (to_key (PyVal.list xs)) = true)
    ∧ (∀ a b : PyVal,
        (a.isHashableType = false ∨ to_tuple_conv a = a) →
        (b.isHashableType = false ∨ to_tuple_conv b = b) →
        to_tuple_conv a = to_tuple_conv b → to_key a = to_key b) := by
  refine ⟨to_key_of_hashableType, ?_, ?_⟩
  · intro xs
    refine ⟨to_key_list_eq_conv xs, ?_⟩
    rw [to_key_list_eq_conv]
    exact actuallyHashable_to_tuple_conv _
  · intro a b ha hb hab
    have key_eq_conv : ∀ c : PyVal,
        (c.isHashableType = false ∨ to_tuple_conv c = c) →
        to_key c = to_tuple_conv c := by
      intro c hc
      cases hc with
      | inl h =>
          cases c with
          | int n => simp [PyVal.isHashableType] at h
          | str s => simp [PyVal.isHashableType] at h
          | tuple xs => simp [PyVal.isHashableType] at h
          | list xs => exact to_key_list_eq_conv xs
      | inr h =>
          cases c with
          | int n => rfl
          | str s => rfl
          | tuple xs => rw [to_key_of_hashableType (PyVal.tuple xs) rfl, h]
          | list xs => exact to_key_list_eq_conv xs
    rw [key_eq_conv a ha, key_eq_conv b hb, hab]

/-- Claim C7 amended, witness: concrete instance of the third part with
`a = [1]` (a list) and `b = (1,)` (a normalised tuple). -/
theorem c7_amended_witness :
    ((PyVal.list [PyVal.int 1]).isHashableType = false
        ∨ to_tuple_conv (PyVal.list [PyVal.int 1]) = PyVal.list [PyVal.int 1])
    ∧ ((PyVal.tuple [PyVal.int 1]).isHashableType = false
        ∨ to_tuple_conv (PyVal.tuple [PyVal.int 1]) = PyVal.tuple [PyVal.int 1])
    ∧ to_tuple_conv (PyVal.list [PyVal.int 1])
        = to_tuple_conv (PyVal.tuple [PyVal.int 1])
    ∧ to_key (PyVal.list [PyVal.int 1]) = to_key (PyVal.tuple [PyVal.int 1]) :=
  ⟨Or.inl rfl, Or.inr rfl, rfl,
    c7_amended.2.2 _ _ (Or.inl rfl) (Or.inr rfl) rfl⟩

/-! ### Python dicts as insertion-ordered association lists -/

/-- Keys of a dict, in insertion order. -/
def dKeys {V : Type} (d : List (PyVal × V)) : List PyVal := d.map Prod.fst

/-- `d[k] = v` for a Python dict: overwrite in place when the key exists,
append otherwise. -/
def dSet {V : Type} (d : List (PyVal × V)) (k : PyVal) (v : V) :
    List (PyVal × V) :=
  if k ∈ dKeys d then d.map (fun p => if p.1 = k then (k, v) else p)
  else d ++ [(k, v)]

/-- `d.update(new)` for Python dicts: set every pair of `new` in iteration
order. -/
def dUpdate {V : Type} (d new : List (PyVal × V)) : List (PyVal × V) :=
  new.foldl (fun acc p => dSet acc p.1 p.2) d

theorem dKeys_append {V : Type} (d e : List (PyVal × V)) :
    dKeys (d ++ e) = dKeys d ++ dKeys e := by
  simp [dKeys]


theorem dKeys_cons {V : Type} (p : PyVal × V) (d : List (PyVal × V)) :
    dKeys (p :: d) = p.1 :: dKeys d := rfl

/-- Overwriting an existing key leaves the key list unchanged; a fresh key is
appended. -/
theorem dKeys_dSet {V : Type} (d : List (PyVal × V)) (k0 : PyVal) (v : V) :
    dKeys (dSet d k0 v) = if k0 ∈ dKeys d then dKeys d else dKeys d ++ [k0] := by
  unfold dSet
  by_cases h : k0 ∈ dKeys d
  · rw [if_pos h, if_pos h]
    show List.map Prod.fst (List.map _ d) = List.map Prod.fst d
    rw [List.map_map]
    apply List.map_congr_left
    intro p _
    by_cases hp : p.1 = k0
    · simp [hp]
    · simp [hp]
  · rw [if_neg h, if_neg h, dKeys_append]
    rfl

theorem mem_dKeys_dSet {V : Type} (d : List (PyVal × V)) (k0 : PyVal) (v : V)
    (k : PyVal) : k ∈ dKeys (dSet d k0 v) ↔ k ∈ dKeys d ∨ k = k0 := by
  rw [dKeys_dSet]
  by_cases h : k0 ∈ dKeys d
  · rw [if_pos h]
    constructor
    · exact Or.inl
    · rintro (hk | rfl)
      · exact hk
      · exact h
  · rw [if_neg h]
    simp

theorem mem_dKeys_dUpdate {V : Type} (new : List (PyVal × V)) :
    ∀ (d : List (PyVal × V)) (k : PyVal),
    k ∈ dKeys (dUpdate d new) ↔ k ∈ dKeys d ∨ k ∈ dKeys new := by
  induction new with
  | nil => intro d k; simp [dUpdate, dKeys]
  | cons p rest ih =>
      intro d k
      show k ∈ dKeys (dUpdate (dSet d p.1 p.2) rest) ↔ _
      rw [ih, mem_dKeys_dSet, dKeys_cons]
      simp only [List.mem_cons]
      tauto

theorem dSet_append_of_not_mem {V : Type} (d : List (PyVal × V)) (k : PyVal)
    (v : V) (h : k ∉ dKeys d) : dSet d k v = d ++ [(k, v)] := by
  simp [dSet, h]

/-- Updating with a fresh-keyed, duplicate-free dict is concatenation. -/
theorem dUpdate_append_of_fresh {V : Type} (new : List (PyVal × V)) :
    ∀ d : List (PyVal × V), (∀ k ∈ dKeys new, k ∉ dKeys d) →
    (dKeys new).Nodup → dUpdate d new = d ++ new := by
  induction new with
  | nil => intro d _ _; simp [dUpdate]
  | cons p rest ih =>
      intro d hfresh hnodup
      rw [dKeys_cons, List.nodup_cons] at hnodup
      have hp : p.1 ∉ dKeys d := hfresh p.1 (by rw [dKeys_cons]; simp)
      show dUpdate (dSet d p.1 p.2) rest = d ++ p :: rest
      rw [dSet_append_of_not_mem d p.1 p.2 hp]
      rw [ih (d ++ [(p.1, p.2)]) ?_ hnodup.2]
      · simp
      · intro k hk
        rw [dKeys_append]
        rw [List.mem_append]
        rintro (h1 | h2)
        · exact hfresh k (by rw [dKeys_cons]; exact List.mem_cons_of_mem _ hk) h1
        · have : k = p.1 := by
            simpa [dKeys] using h2
          exact hnodup.1 (this ▸ hk)

/-- `dUpdate` over a concatenation is sequential updating. -/
theorem dUpdate_append_right {V : Type} (d l1 l2 : List (PyVal × V)) :
    dUpdate d (l1 ++ l2) = dUpdate (dUpdate d l1) l2 := by
  simp [dUpdate, List.foldl_append]

/-! ### `_flatten_batch_responses` and `cleanup_response_data` -/

/-- `RateLimitedRequestsThreadPool._flatten_batch_responses`: rebuild the
dict, expanding every entry whose key is registered in `batched_requests`
into one entry per element of that key (all carrying the entry's value,
via the dict comprehension), and passing other entries through. -/
def flatten_batch_responses {V : Type} (batched : List PyVal)
    (dict_in : List (PyVal × V)) : List (PyVal × V) :=
  dict_in.foldl (fun acc kv =>
    if kv.1 ∈ batched then
      dUpdate acc (dUpdate [] ((kv.1.elems).map (fun k => (k, kv.2))))
    else dUpdate acc [kv]) []

/-- The success-map part of `cleanup_response_data`: iterate over the
*values* of `results['data']` (each of which is itself a dict) and merge
them into one dict — the stored batch keys are discarded. -/
def cleanup_data {V : Type} (d : List (PyVal × List (PyVal × V))) :
    List (PyVal × V) :=
  d.foldl (fun acc kv => dUpdate acc kv.2) []

/-- The timestamp part of `cleanup_response_data`: each element of the
timestamp deque is a one-entry dict, flattened and merged in order. -/
def cleanup_timestamps {V : Type} (batched : List PyVal)
    (tss : List (PyVal × V)) : List (PyVal × V) :=
  tss.foldl (fun acc item =>
    dUpdate acc (flatten_batch_responses batched [item])) []

theorem dUpdate_nil_right {V : Type} (d : List (PyVal × V)) :
    dUpdate d [] = d := rfl

theorem dUpdate_nil_left_of_nodup {V : Type} (l : List (PyVal × V))
    (h : (dKeys l).Nodup) : dUpdate [] l = l := by
  have := dUpdate_append_of_fresh l [] (by intro k _ hk; simp [dKeys] at hk) h
  simpa using this

theorem flatten_single_batched {V : Type} (batched : List PyVal) (k : PyVal)
    (v : V) (hk : k ∈ batched) (hnodup : k.elems.Nodup) :
    flatten_batch_responses batched [(k, v)]
      = k.elems.map (fun x => (x, v)) := by
  have hkeys : dKeys (k.elems.map (fun x => (x, v))) = k.elems := by
    unfold dKeys
    rw [List.map_map]
    have hcomp : (Prod.fst ∘ fun x : PyVal => (x, v)) = id := rfl
    rw [hcomp, List.map_id]
  have hnodup' : (dKeys (k.elems.map (fun x => (x, v)))).Nodup := by
    rw [hkeys]; exact hnodup
  change (if k ∈ batched then
      dUpdate [] (dUpdate [] (k.elems.map (fun x => (x, v))))
    else dUpdate [] [(k, v)]) = _
  rw [if_pos hk]
  rw [dUpdate_nil_left_of_nodup _ hnodup', dUpdate_nil_left_of_nodup _ hnodup']

theorem flatten_single_passthrough {V : Type} (batched : List PyVal)
    (k : PyVal) (v : V) (hk : k ∉ batched) :
    flatten_batch_responses batched [(k, v)] = [(k, v)] := by
  change (if k ∈ batched then
      dUpdate [] (dUpdate [] (k.elems.map (fun x => (x, v))))
    else dUpdate [] [(k, v)]) = _
  rw [if_neg hk]
  exact dUpdate_nil_left_of_nodup _ (by simp [dKeys])

theorem cleanup_data_foldl {V : Type} (d : List (PyVal × List (PyVal × V))) :
    ∀ acc : List (PyVal × V),
      d.foldl (fun acc kv => dUpdate acc kv.2) acc
        = dUpdate acc (d.map Prod.snd).flatten := by
  induction d with
  | nil => intro acc; simp [dUpdate]
  | cons p rest ih =>
      intro acc
      show rest.foldl _ (dUpdate acc p.2) = _
      rw [ih (dUpdate acc p.2)]
      rw [List.map_cons, List.flatten_cons, dUpdate_append_right]

/-- `cleanup_data` equals updating the empty dict with the concatenation of
all stored response dicts: stored keys play no role. -/
theorem cleanup_data_eq_merge {V : Type}
    (d : List (PyVal × List (PyVal × V))) :
    cleanup_data d = dUpdate [] (d.map Prod.snd).flatten :=
  cleanup_data_foldl d []

/-- Claim C3 counterexample: after a round, the *success* map is not
batch-expanded.  With the registered batch-key `(1, 2)` holding the success
response dict `{'a': 7}`, `cleanup_response_data` rebuilds the success map
as `{'a': 7}` (keys taken from the response value), whereas the claimed
expansion would produce entries keyed `1` and `2`. -/
theorem c3_counterexample :
    cleanup_data [(PyVal.tuple [PyVal.int 1, PyVal.int 2],
        [(PyVal.str "a", (7 : ℕ))])]
      = [(PyVal.str "a", 7)]
    ∧ dKeys (flatten_batch_responses [PyVal.tuple [PyVal.int 1, PyVal.int 2]]
        [(PyVal.tuple [PyVal.int 1, PyVal.int 2],
          [(PyVal.str "a", (7 : ℕ))])])
      = [PyVal.int 1, PyVal.int 2]
    ∧ dKeys (cleanup_data [(PyVal.tuple [PyVal.int 1, PyVal.int 2],
        [(PyVal.str "a", (7 : ℕ))])])
      ≠ [PyVal.int 1, PyVal.int 2] := by
  refine ⟨rfl, rfl, ?_⟩
  decide

/-- Claim C3 (amended): batch expansion applies to the failure map and the
timestamp map — an entry keyed by a registered batch key of three distinct
sub-keys becomes exactly three entries carrying the identical value, and
non-batch keys pass through unchanged — but the success map is instead
rebuilt by merging the success response dicts (their values), discarding
the stored batch keys entirely. -/
theorem c3_amended :
    (∀ (V : Type) (batched : List PyVal) (k1 k2 k3 : PyVal) (v : V),
      PyVal.tuple [k1, k2, k3] ∈ batched → k1 ≠ k2 → k1 ≠ k3 → k2 ≠ k3 →
      flatten_batch_responses batched [(PyVal.tuple [k1, k2, k3], v)]
        = [(k1, v), (k2, v), (k3, v)])
    ∧ (∀ (V : Type) (batched : List PyVal) (k : PyVal) (v : V),
      k ∉ batched →
      flatten_batch_responses batched [(k, v)] = [(k, v)])
    ∧ (∀ (V : Type) (d : List (PyVal × List (PyVal × V))),
      cleanup_data d = dUpdate [] (d.map Prod.snd).flatten)
    ∧ (∀ (V : Type) (batched : List PyVal) (k1 k2 k3 : PyVal) (ts : V),
      PyVal.tuple [k1, k2, k3] ∈ batched → k1 ≠ k2 → k1 ≠ k3 → k2 ≠ k3 →
      cleanup_timestamps batched [(PyVal.tuple [k1, k2, k3], ts)]
        = [(k1, ts), (k2, ts), (k3, ts)]) := by
  have hexp : ∀ (V : Type) (batched : List PyVal) (k1 k2 k3 : PyVal) (v : V),
      PyVal.tuple [k1, k2, k3] ∈ batched → k1 ≠ k2 → k1 ≠ k3 → k2 ≠ k3 →
      flatten_batch_responses batched [(PyVal.tuple [k1, k2, k3], v)]
        = [(k1, v), (k2, v), (k3, v)] := by
    intro V batched k1 k2 k3 v hmem h12 h13 h23
    have := flatten_single_batched batched (PyVal.tuple [k1, k2, k3]) v hmem
      (by simp [PyVal.elems]; exact ⟨⟨h12, h13⟩, h23⟩)
    simpa [PyVal.elems] using this
  refine ⟨hexp, ?_, ?_, ?_⟩
  · intro V batched k v hk
    exact flatten_single_passthrough batched k v hk
  · intro V d
    exact cleanup_data_eq_merge d
  · intro V batched k1 k2 k3 ts hmem h12 h13 h23
    show dUpdate []
        (flatten_batch_responses batched [(PyVal.tuple [k1, k2, k3], ts)]) = _
    rw [hexp V batched k1 k2 k3 ts hmem h12 h13 h23]
    apply dUpdate_nil_left_of_nodup
    simp [dKeys]
    exact ⟨⟨h12, h13⟩, h23⟩

/-- Claim C3 amended, witness: a registered three-element batch key whose
unit failure value `5` is expanded into exactly three identical entries. -/
theorem c3_amended_witness :
    PyVal.tuple [PyVal.int 1, PyVal.int 2, PyVal.int 3]
      ∈ [PyVal.tuple [PyVal.int 1, PyVal.int 2, PyVal.int 3]]
    ∧ PyVal.int 1 ≠ PyVal.int 2
    ∧ PyVal.int 1 ≠ PyVal.int 3
    ∧ PyVal.int 2 ≠ PyVal.int 3
    ∧ flatten_batch_responses
        [PyVal.tuple [PyVal.int 1, PyVal.int 2, PyVal.int 3]]
        [(PyVal.tuple [PyVal.int 1, PyVal.int 2, PyVal.int 3], (5 : ℕ))]
      = [(PyVal.int 1, 5), (PyVal.int 2, 5), (PyVal.int 3, 5)] :=
  ⟨by decide, by decide, by decide, by decide,
    c3_amended.1 ℕ _ _ _ _ 5 (by decide) (by decide) (by decide) (by decide)⟩

/-! ### One round of the worker pool (`ThreadWithReturn.run`)

Workers repeatedly pull a batch from the `data_queue`, call `func`, and
record the outcome in the shared `results` dict under
`to_key(arg)` — `'data'` on success (the response, itself a per-sub-key
dict), `'errors'` on any caught failure (a message string).  Concurrency is
abstracted to its observable result: every queued batch is recorded exactly
once, in queue order. -/

/-- The store written by the workers during a round. -/
structure RoundStore (V : Type) where
  data : List (PyVal × List (PyVal × V))
  errors : List (PyVal × String)

/-- The cleaned result of a round (also the shape merged by `run_pool`
across rounds). -/
structure CleanResults (V : Type) where
  data : List (PyVal × V)
  errors : List (PyVal × String)

/-- The canonical key a worker records a batch under: the batch is a Python
list, so `to_key` converts it with `to_tuple`. -/
def batchKey (b : List PyVal) : PyVal := to_key (PyVal.list b)

def exOk {V : Type} : Except String V → Bool
  | .ok _ => true
  | .error _ => false

def exVal {V : Type} (dflt : V) : Except String V → V
  | .ok v => v
  | .error _ => dflt

def exMsg {V : Type} : Except String V → String
  | .ok _ => ""
  | .error m => m

/-- One worker iteration: run the collaborator on the batch and record the
outcome under the batch's canonical key (`ThreadWithReturn.run`). -/
def worker_step {V : Type} (fn : List PyVal → Except String (List (PyVal × V)))
    (st : RoundStore V) (b : List PyVal) : RoundStore V :=
  match fn b with
  | .ok resp => ⟨dUpdate st.data [(batchKey b, resp)], st.errors⟩
  | .error msg => ⟨st.data, dUpdate st.errors [(batchKey b, msg)]⟩

/-- The store after a round in which `batches` were queued, in order. -/
def worker_store {V : Type}
    (fn : List PyVal → Except String (List (PyVal × V)))
    (batches : List (List PyVal)) : RoundStore V :=
  batches.foldl (worker_step fn) ⟨[], []⟩

/-- A round's observable result after `cleanup_response_data`: the merged
success dict and the batch-flattened error dict. -/
def round_result {V : Type}
    (fn : List PyVal → Except String (List (PyVal × V)))
    (batched : List PyVal) (batches : List (List PyVal)) : CleanResults V :=
  ⟨cleanup_data (worker_store fn batches).data,
   flatten_batch_responses batched (worker_store fn batches).errors⟩

theorem worker_foldl_fresh {V : Type}
    (fn : List PyVal → Except String (List (PyVal × V))) :
    ∀ (batches : List (List PyVal)) (st : RoundStore V),
    (∀ b ∈ batches, batchKey b ∉ dKeys st.data ∧ batchKey b ∉ dKeys st.errors) →
    (batches.map batchKey).Nodup →
    (batches.foldl (worker_step fn) st).data
        = st.data ++ (batches.filter (fun b => exOk (fn b))).map
            (fun b => (batchKey b, exVal [] (fn b)))
    ∧ (batches.foldl (worker_step fn) st).errors
        = st.errors ++ (batches.filter (fun b => !exOk (fn b))).map
            (fun b => (batchKey b, exMsg (fn b))) := by
  intro batches
  induction batches with
  | nil => intro st _ _; simp
  | cons b bs ih =>
      intro st hfresh hnodup
      rw [List.map_cons, List.nodup_cons] at hnodup
      have hb := hfresh b (by simp)
      have hstep : ∀ st' : RoundStore V, st' = worker_step fn st b →
          (st'.data = st.data ++ (if exOk (fn b)
              then [(batchKey b, exVal [] (fn b))] else []))
          ∧ (st'.errors = st.errors ++ (if exOk (fn b)
              then [] else [(batchKey b, exMsg (fn b))])) := by
        intro st' hst'
        cases hfn : fn b with
        | ok resp =>
            rw [hst']
            unfold worker_step
            rw [hfn]
            simp [exOk, exVal, hfn]
            rw [dUpdate_append_of_fresh _ _ ?_ ?_]
            · intro k hk
              simp [dKeys] at hk
              rw [hk]
              exact hb.1
            · simp [dKeys]
        | error msg =>
            rw [hst']
            unfold worker_step
            rw [hfn]
            simp [exOk, exMsg, hfn]
            rw [dUpdate_append_of_fresh _ _ ?_ ?_]
            · intro k hk
              simp [dKeys] at hk
              rw [hk]
              exact hb.2
            · simp [dKeys]
      obtain ⟨hd, he⟩ := hstep (worker_step fn st b) rfl
      have hfresh' : ∀ b' ∈ bs,
          batchKey b' ∉ dKeys (worker_step fn st b).data
          ∧ batchKey b' ∉ dKeys (worker_step fn st b).errors := by
        intro b' hb'
        have hne : batchKey b' ≠ batchKey b := by
          intro hcontra
          exact hnodup.1 (hcontra ▸ List.mem_map_of_mem batchKey hb')
        have hf := hfresh b' (by simp [hb'])
        constructor
        · rw [hd, dKeys_append]
          rw [List.mem_append]
          rintro (h1 | h2)
          · exact hf.1 h1
          · cases hx : exOk (fn b) <;> rw [hx] at h2 <;> simp [dKeys] at h2
            exact hne h2
        · rw [he, dKeys_append]
          rw [List.mem_append]
          rintro (h1 | h2)
          · exact hf.2 h1
          · cases hx : exOk (fn b) <;> rw [hx] at h2 <;> simp [dKeys] at h2
            exact hne h2
      have := ih (worker_step fn st b) hfresh' hnodup.2
      rw [List.foldl_cons]
      refine ⟨?_, ?_⟩
      · rw [this.1, hd]
        cases hx : exOk (fn b) <;>
          simp [List.filter_cons, hx]
      · rw [this.2, he]
        cases hx : exOk (fn b) <;>
          simp [List.filter_cons, hx]

theorem dKeys_map_pair {V : Type} (l : List PyVal) (v : V) :
    dKeys (l.map (fun x => (x, v))) = l := by
  unfold dKeys
  rw [List.map_map]
  have hcomp : (Prod.fst ∘ fun x : PyVal => (x, v)) = id := rfl
  rw [hcomp, List.map_id]

theorem mem_dKeys_cleanup_data {V : Type} (d : List (PyVal × List (PyVal × V)))
    (k : PyVal) :
    k ∈ dKeys (cleanup_data d) ↔ ∃ kv ∈ d, k ∈ dKeys kv.2 := by
  rw [cleanup_data_eq_merge]
  rw [mem_dKeys_dUpdate]
  simp only [dKeys, List.map_nil, List.not_mem_nil, false_or, List.mem_map,
    List.mem_flatten]
  constructor
  · rintro ⟨p, ⟨l, ⟨kv, hkv, rfl⟩, hpl⟩, hfst⟩
    exact ⟨kv, hkv, p, hpl, hfst⟩
  · rintro ⟨kv, hkv, p, hp, hfst⟩
    exact ⟨p, ⟨kv.2, ⟨kv, hkv, rfl⟩, hp⟩, hfst⟩

/-- The body of the `_flatten_batch_responses` loop, named for lemmas. -/
def flatten_step {V : Type} (batched : List PyVal) (acc : List (PyVal × V))
    (kv : PyVal × V) : List (PyVal × V) :=
  if kv.1 ∈ batched then
    dUpdate acc (dUpdate [] ((kv.1.elems).map (fun x => (x, kv.2))))
  else dUpdate acc [kv]

theorem flatten_eq_foldl_step {V : Type} (batched : List PyVal)
    (dIn : List (PyVal × V)) :
    flatten_batch_responses batched dIn = dIn.foldl (flatten_step batched) [] :=
  rfl

theorem mem_dKeys_flatten_aux {V : Type} (batched : List PyVal) :
    ∀ (dIn : List (PyVal × V)) (acc : List (PyVal × V)) (k : PyVal),
    k ∈ dKeys (dIn.foldl (flatten_step batched) acc)
    ↔ k ∈ dKeys acc ∨ ∃ kv ∈ dIn,
        (kv.1 ∈ batched ∧ k ∈ kv.1.elems) ∨ (kv.1 ∉ batched ∧ k = kv.1) := by
  intro dIn
  induction dIn with
  | nil => intro acc k; simp
  | cons p rest ih =>
      intro acc k
      rw [List.foldl_cons, ih]
      have hstep : k ∈ dKeys (flatten_step batched acc p) ↔
          k ∈ dKeys acc ∨ ((p.1 ∈ batched ∧ k ∈ p.1.elems)
            ∨ (p.1 ∉ batched ∧ k = p.1)) := by
        unfold flatten_step
        by_cases hp : p.1 ∈ batched
        · rw [if_pos hp, mem_dKeys_dUpdate, mem_dKeys_dUpdate, dKeys_map_pair]
          simp only [dKeys, List.map_nil, List.not_mem_nil, false_or]
          constructor
          · rintro (h | h)
            · exact Or.inl h
            · exact Or.inr (Or.inl ⟨hp, h⟩)
          · rintro (h | (⟨_, h⟩ | ⟨hnb, _⟩))
            · exact Or.inl h
            · exact Or.inr h
            · exact absurd hp hnb
        · rw [if_neg hp, mem_dKeys_dUpdate]
          simp only [dKeys, List.map_cons, List.map_nil, List.mem_singleton]
          constructor
          · rintro (h | h)
            · exact Or.inl h
            · exact Or.inr (Or.inr ⟨hp, h⟩)
          · rintro (h | (⟨hb, _⟩ | ⟨_, h⟩))
            · exact Or.inl h
            · exact absurd hb hp
            · exact Or.inr h
      rw [hstep]
      simp only [List.mem_cons]
      constructor
      · rintro ((h | h) | ⟨kv, hkv, hcase⟩)
        · exact Or.inl h
        · exact Or.inr ⟨p, Or.inl rfl, h⟩
        · exact Or.inr ⟨kv, Or.inr hkv, hcase⟩
      · rintro (h | ⟨kv, (rfl | hkv), hcase⟩)
        · exact Or.inl (Or.inl h)
        · exact Or.inl (Or.inr hcase)
        · exact Or.inr ⟨kv, hkv, hcase⟩

theorem mem_dKeys_flatten_batch {V : Type} (batched : List PyVal)
    (dIn : List (PyVal × V)) (k : PyVal) :
    k ∈ dKeys (flatten_batch_responses batched dIn)
    ↔ ∃ kv ∈ dIn,
        (kv.1 ∈ batched ∧ k ∈ kv.1.elems) ∨ (kv.1 ∉ batched ∧ k = kv.1) := by
  rw [flatten_eq_foldl_step, mem_dKeys_flatten_aux]
  simp [dKeys]

/-- When every element of the batch converts the same way under `to_tuple`
as under `to_key` (true for ints, strings, lists and fully-normalised
tuples), the batch's canonical key is the tuple of its elements' keys. -/
theorem batchKey_eq_tuple (b : List PyVal)
    (hconv : ∀ a ∈ b, to_tuple_conv a = to_key a) :
    batchKey b = PyVal.tuple (b.map to_key) := by
  unfold batchKey
  rw [to_key_list_eq_conv]
  show PyVal.tuple (to_tuple_list b) = _
  rw [to_tuple_list_eq_map]
  congr 1
  exact List.map_congr_left hconv

theorem dKeys_worker_data {V : Type}
    (fn : List PyVal → Except String (List (PyVal × V)))
    (batches : List (List PyVal))
    (hKeyNodup : (batches.map batchKey).Nodup)
    (hok : ∀ b ∈ batches, ∀ resp, fn b = Except.ok resp →
        dKeys resp = b.map to_key) (k : PyVal) :
    k ∈ dKeys (cleanup_data (worker_store fn batches).data)
    ↔ ∃ b ∈ batches, exOk (fn b) = true ∧ k ∈ b.map to_key := by
  have hfold := worker_foldl_fresh fn batches ⟨[], []⟩
    (by intro b _; exact ⟨by simp [dKeys], by simp [dKeys]⟩) hKeyNodup
  have hD : (worker_store fn batches).data
      = (batches.filter (fun b => exOk (fn b))).map
          (fun b => (batchKey b, exVal [] (fn b))) := by
    have := hfold.1
    simpa [worker_store] using this
  rw [mem_dKeys_cleanup_data, hD]
  constructor
  · rintro ⟨kv, hkv, hkk⟩
    rcases List.mem_map.mp hkv with ⟨b, hbf, rfl⟩
    rcases List.mem_filter.mp hbf with ⟨hb, hxok⟩
    refine ⟨b, hb, hxok, ?_⟩
    cases hfn : fn b with
    | ok resp =>
        rw [← hok b hb resp hfn]
        simpa [exVal, hfn] using hkk
    | error msg => rw [hfn] at hxok; simp [exOk] at hxok
  · rintro ⟨b, hb, hxok, hk⟩
    cases hfn : fn b with
    | ok resp =>
        refine ⟨(batchKey b, exVal [] (fn b)), List.mem_map_of_mem _
          (List.mem_filter.mpr ⟨hb, hxok⟩), ?_⟩
        rw [hfn]
        show k ∈ dKeys resp
        rw [hok b hb resp hfn]
        exact hk
    | error msg => rw [hfn] at hxok; simp [exOk] at hxok

theorem dKeys_worker_errors {V : Type}
    (fn : List PyVal → Except String (List (PyVal × V)))
    (batched : List PyVal) (batches : List (List PyVal))
    (hKeyNodup : (batches.map batchKey).Nodup)
    (hBK : ∀ b ∈ batches, batchKey b = PyVal.tuple (b.map to_key))
    (herr : ∀ b ∈ batches, ∀ msg, fn b = Except.error msg →
        batchKey b ∈ batched) (k : PyVal) :
    k ∈ dKeys (flatten_batch_responses batched (worker_store fn batches).errors)
    ↔ ∃ b ∈ batches, exOk (fn b) = false ∧ k ∈ b.map to_key := by
  have hfold := worker_foldl_fresh fn batches ⟨[], []⟩
    (by intro b _; exact ⟨by simp [dKeys], by simp [dKeys]⟩) hKeyNodup
  have hE : (worker_store fn batches).errors
      = (batches.filter (fun b => !exOk (fn b))).map
          (fun b => (batchKey b, exMsg (fn b))) := by
    have := hfold.2
    simpa [worker_store] using this
  rw [mem_dKeys_flatten_batch, hE]
  constructor
  · rintro ⟨kv, hkv, hcase⟩
    rcases List.mem_map.mp hkv with ⟨b, hbf, rfl⟩
    rcases List.mem_filter.mp hbf with ⟨hb, hxerr⟩
    have hxerr' : exOk (fn b) = false := by
      simpa using hxerr
    refine ⟨b, hb, hxerr', ?_⟩
    rcases hcase with ⟨_, helem⟩ | ⟨hnb, _⟩
    · rw [hBK b hb] at helem
      simpa [PyVal.elems] using helem
    · exfalso
      cases hfn : fn b with
      | ok resp => rw [hfn] at hxerr'; simp [exOk] at hxerr'
      | error msg => exact hnb (herr b hb msg hfn)
  · rintro ⟨b, hb, hxerr, hk⟩
    cases hfn : fn b with
    | ok resp => rw [hfn] at hxerr; simp [exOk] at hxerr
    | error msg =>
        refine ⟨(batchKey b, exMsg (fn b)), List.mem_map_of_mem _
          (List.mem_filter.mpr ⟨hb, by simp [hxerr]⟩), Or.inl ⟨?_, ?_⟩⟩
        · exact herr b hb msg hfn
        · rw [hBK b hb]
          simpa [PyVal.elems] using hk

/-- Claim C1 counterexample: a successful single-argument round whose
collaborator returns an *empty* response dict.  `cleanup_response_data`
takes the success keys from the response values, so the backlog key `5`
ends up in neither `'data'` nor `'errors'` — coverage fails. -/
theorem c1_counterexample :
    (round_result (fun _ => Except.ok ([] : List (PyVal × ℕ))) []
        [[PyVal.int 5]]).data = []
    ∧ (round_result (fun _ => Except.ok ([] : List (PyVal × ℕ))) []
        [[PyVal.int 5]]).errors = []
    ∧ [PyVal.int 5].map to_key = [PyVal.int 5] := by
  refine ⟨?_, ?_, ?_⟩ <;> decide

/-- Claim C1 (amended): provided the round's backlog has pairwise distinct
canonical keys, every batch is nonempty and slices the backlog exactly
(`batches.flatten = backlog`), every *successful* batch's response is a dict
keyed exactly by the batch's sub-keys, every *failed* batch's canonical key
was registered in the batch-key set, and the backlog's elements convert
identically under `to_tuple` and `to_key` — then after cleanup the success
and failure key sets are disjoint and their union is exactly the backlog's
key set.  (The counterexample shows the provisos are necessary: the code by
itself guarantees neither coverage nor the key shape.) -/
theorem c1_amended {V : Type}
    (fn : List PyVal → Except String (List (PyVal × V)))
    (batched : List PyVal) (batches : List (List PyVal))
    (backlog : List PyVal)
    (hjoin : batches.flatten = backlog)
    (hne : ∀ b ∈ batches, b ≠ [])
    (hnodup : (backlog.map to_key).Nodup)
    (hconv : ∀ a ∈ backlog, to_tuple_conv a = to_key a)
    (hok : ∀ b ∈ batches, ∀ resp, fn b = Except.ok resp →
        dKeys resp = b.map to_key)
    (herr : ∀ b ∈ batches, ∀ msg, fn b = Except.error msg →
        batchKey b ∈ batched) :
    (∀ k, ¬(k ∈ dKeys (round_result fn batched batches).data
        ∧ k ∈ dKeys (round_result fn batched batches).errors))
    ∧ (∀ k, (k ∈ dKeys (round_result fn batched batches).data
        ∨ k ∈ dKeys (round_result fn batched batches).errors)
        ↔ k ∈ backlog.map to_key) := by
  have hBK : ∀ b ∈ batches, batchKey b = PyVal.tuple (b.map to_key) := by
    intro b hb
    exact batchKey_eq_tuple b
      (fun a ha => hconv a (hjoin ▸ List.mem_flatten.mpr ⟨b, hb, ha⟩))
  have hnodup' : ((batches.map (List.map to_key)).flatten).Nodup := by
    rw [← List.map_flatten, hjoin]
    exact hnodup
  obtain ⟨hInner, hPairDisj⟩ := List.nodup_flatten.mp hnodup'
  have hPair : batches.Pairwise
      (fun b1 b2 => (b1.map to_key).Disjoint (b2.map to_key)) := by
    have h := (List.pairwise_map).mp hPairDisj
    simpa [Function.onFun] using h
  have hKeyNodup : (batches.map batchKey).Nodup := by
    show (batches.map batchKey).Pairwise (· ≠ ·)
    rw [List.pairwise_map]
    refine hPair.imp_of_mem (fun {b1 b2} h1 h2 hdisj => ?_)
    intro heq
    rw [hBK b1 h1, hBK b2 h2] at heq
    injection heq with hkl
    have hb1ne : b1.map to_key ≠ [] := by
      intro hnil
      exact hne b1 h1 (by simpa using hnil)
    rcases List.exists_mem_of_ne_nil _ hb1ne with ⟨x, hx⟩
    exact hdisj hx (hkl ▸ hx)
  have hdata := fun k => dKeys_worker_data fn batches hKeyNodup hok k
  have herrs := fun k =>
    dKeys_worker_errors fn batched batches hKeyNodup hBK herr k
  have hcov : ∀ k, k ∈ backlog.map to_key ↔ ∃ b ∈ batches, k ∈ b.map to_key := by
    intro k
    rw [← hjoin, List.map_flatten, List.mem_flatten]
    constructor
    · rintro ⟨l, hl, hkl⟩
      rcases List.mem_map.mp hl with ⟨b, hb, rfl⟩
      exact ⟨b, hb, hkl⟩
    · rintro ⟨b, hb, hk⟩
      exact ⟨b.map to_key, List.mem_map_of_mem _ hb, hk⟩
  constructor
  · rintro k ⟨hk1, hk2⟩
    rcases (hdata k).mp hk1 with ⟨b1, hb1, hok1, hkk1⟩
    rcases (herrs k).mp hk2 with ⟨b2, hb2, herr2, hkk2⟩
    have hbne : b1 ≠ b2 := by
      intro h
      rw [h] at hok1
      rw [hok1] at herr2
      cases herr2
    have hdisj : (b1.map to_key).Disjoint (b2.map to_key) :=
      hPair.forall (fun x y h => h.symm) hb1 hb2 hbne
    exact hdisj hkk1 hkk2
  · intro k
    rw [hcov k]
    constructor
    · rintro (hk | hk)
      · rcases (hdata k).mp hk with ⟨b, hb, _, hkk⟩
        exact ⟨b, hb, hkk⟩
      · rcases (herrs k).mp hk with ⟨b, hb, _, hkk⟩
        exact ⟨b, hb, hkk⟩
    · rintro ⟨b, hb, hk⟩
      cases hxok : exOk (fn b) with
      | true => exact Or.inl ((hdata k).mpr ⟨b, hb, hxok, hk⟩)
      | false => exact Or.inr ((herrs k).mpr ⟨b, hb, hxok, hk⟩)

/-- Concrete collaborator for the C1 witness: the batch `[3]` fails, every
other batch succeeds with the response dict keyed by `1` and `2`. -/
def c1WitnessFn : List PyVal → Except String (List (PyVal × ℕ)) :=
  fun b => if b = [PyVal.int 3] then Except.error "boom"
    else Except.ok [(PyVal.int 1, 0), (PyVal.int 2, 0)]

/-- Claim C1 amended, witness: backlog `[1, 2, 3]`, batches `[1, 2]`
(succeeds, well-keyed response) and `[3]` (fails, registered as batched);
the amended theorem yields exact coverage of the backlog keys. -/
theorem c1_amended_witness :
    ([[PyVal.int 1, PyVal.int 2], [PyVal.int 3]] : List (List PyVal)).flatten
      = [PyVal.int 1, PyVal.int 2, PyVal.int 3]
    ∧ ([PyVal.int 1, PyVal.int 2, PyVal.int 3].map to_key).Nodup
    ∧ (∀ k,
        (k ∈ dKeys (round_result c1WitnessFn [PyVal.tuple [PyVal.int 3]]
            [[PyVal.int 1, PyVal.int 2], [PyVal.int 3]]).data
          ∨ k ∈ dKeys (round_result c1WitnessFn [PyVal.tuple [PyVal.int 3]]
            [[PyVal.int 1, PyVal.int 2], [PyVal.int 3]]).errors)
        ↔ k ∈ [PyVal.int 1, PyVal.int 2, PyVal.int 3].map to_key) := by
  refine ⟨rfl, by decide, ?_⟩
  refine (c1_amended c1WitnessFn [PyVal.tuple [PyVal.int 3]]
    [[PyVal.int 1, PyVal.int 2], [PyVal.int 3]]
    [PyVal.int 1, PyVal.int 2, PyVal.int 3]
    rfl (by decide) (by decide) (by decide) ?_ ?_).2
  · intro b hb resp hresp
    rcases List.mem_cons.mp hb with rfl | hb2
    · rw [show c1WitnessFn [PyVal.int 1, PyVal.int 2]
          = Except.ok [(PyVal.int 1, 0), (PyVal.int 2, 0)] from rfl] at hresp
      injection hresp with h
      rw [← h]
      decide
    · rcases List.mem_cons.mp hb2 with rfl | hb3
      · rw [show c1WitnessFn [PyVal.int 3] = Except.error "boom" from rfl]
          at hresp
        cases hresp
      · cases hb3
  · intro b hb msg hresp
    rcases List.mem_cons.mp hb with rfl | hb2
    · rw [show c1WitnessFn [PyVal.int 1, PyVal.int 2]
          = Except.ok [(PyVal.int 1, 0), (PyVal.int 2, 0)] from rfl] at hresp
      cases hresp
    · rcases List.mem_cons.mp hb2 with rfl | hb3
      · show batchKey [PyVal.int 3] ∈ [PyVal.tuple [PyVal.int 3]]
        decide
      · cases hb3

/-! ### The retry driver `run_pool`

One pool round (`RateLimitedRequestsThreadPool(...)` + `return_data`) is
abstracted as a function `rf : ℕ → List PyVal → CleanResults V` from the
round index and the round's argument backlog to the cleaned result.  The
`verbose` timestamp plumbing is omitted (no claim depends on it). -/

/-- Python truthiness of a `PyVal`, as used by `any(...)` iterating a dict
(which yields its *keys*). -/
def truthy : PyVal → Bool
  | .int n => n != 0
  | .str s => s != ""
  | .tuple xs => !xs.isEmpty
  | .list xs => !xs.isEmpty

/-- Python's `any(d)` on a dict `d`: is some key truthy? -/
def anyDict {V : Type} (d : List (PyVal × V)) : Bool :=
  d.any (fun p => truthy p.1)

/-- The `while max_repeat > 0 and len(func_args) > 0` loop of `run_pool`:
accumulates `results['data']`, reseeds `func_args` from the error keys when
`any(errors)` holds, and remembers the last round's `return_values`
(`none` when the body never ran — reading it then raises `NameError`). -/
def run_pool_loop {V : Type} (rf : ℕ → List PyVal → CleanResults V) :
    ℕ → ℕ → List PyVal → List (PyVal × V) → Option (CleanResults V) →
    List (PyVal × V) × Option (CleanResults V)
  | 0, _, _, dataAcc, last => (dataAcc, last)
  | Nat.succ n, i, args, dataAcc, last =>
    if args.isEmpty then (dataAcc, last)
    else
      run_pool_loop rf n (i + 1)
        (if anyDict (rf i args).errors then dKeys (rf i args).errors else [])
        (dUpdate dataAcc (rf i args).data)
        (some (rf i args))

/-- `run_pool(func, func_args, max_repeat, ...)`: returns `none` exactly
when the source raises `NameError` on the post-loop
`any(return_values['errors'])` (loop body never executed), otherwise the
accumulated successes plus the last round's errors — the latter only when
`any(errors)` is true. -/
def run_pool {V : Type} (rf : ℕ → List PyVal → CleanResults V)
    (max_repeat : ℕ) (func_args : List PyVal) : Option (CleanResults V) :=
  match run_pool_loop rf max_repeat 0 func_args [] none with
  | (_, none) => none
  | (dataAcc, some rv) =>
      some ⟨dataAcc,
        if anyDict rv.errors then dUpdate [] rv.errors else []⟩

/-- The sequence of per-round results the loop produces. -/
def rounds_trace {V : Type} (rf : ℕ → List PyVal → CleanResults V) :
    ℕ → ℕ → List PyVal → List (CleanResults V)
  | 0, _, _ => []
  | Nat.succ n, i, args =>
    if args.isEmpty then []
    else
      rf i args :: rounds_trace rf n (i + 1)
        (if anyDict (rf i args).errors then dKeys (rf i args).errors else [])

/-- The last round the loop saw, threaded through the trace. -/
def lastRound {V : Type} (tr : List (CleanResults V))
    (last : Option (CleanResults V)) : Option (CleanResults V) :=
  match tr.getLast? with
  | some rv => some rv
  | none => last

theorem lastRound_cons {V : Type} (rv : CleanResults V)
    (tr : List (CleanResults V)) (last : Option (CleanResults V)) :
    lastRound (rv :: tr) last = lastRound tr (some rv) := by
  unfold lastRound
  cases tr with
  | nil => rfl
  | cons a l =>
      rw [List.getLast?_cons_cons]
      cases h2 : (a :: l).getLast? with
      | none => exact absurd (List.getLast?_eq_none_iff.mp h2) (by simp)
      | some y => rfl

theorem lastRound_of_ne_nil {V : Type} (tr : List (CleanResults V))
    (last : Option (CleanResults V)) (h : tr ≠ []) :
    lastRound tr last = some (tr.getLastD ⟨[], []⟩) := by
  unfold lastRound
  cases htr : tr.getLast? with
  | none => exact absurd (List.getLast?_eq_none_iff.mp htr) h
  | some x =>
      rw [List.getLastD_eq_getLast?, htr]
      rfl

theorem run_pool_loop_trace {V : Type} (rf : ℕ → List PyVal → CleanResults V) :
    ∀ (n i : ℕ) (args : List PyVal) (dataAcc : List (PyVal × V))
      (last : Option (CleanResults V)),
    run_pool_loop rf n i args dataAcc last
      = ((rounds_trace rf n i args).foldl (fun a r => dUpdate a r.data) dataAcc,
         lastRound (rounds_trace rf n i args) last) := by
  intro n
  induction n with
  | zero => intro i args dataAcc last; rfl
  | succ n ih =>
      intro i args dataAcc last
      simp only [run_pool_loop, rounds_trace]
      by_cases h : args.isEmpty
      · rw [if_pos h, if_pos h]
        rfl
      · rw [if_neg h, if_neg h]
        rw [ih]
        rw [List.foldl_cons, lastRound_cons]

theorem rounds_trace_nil_args {V : Type} (rf : ℕ → List PyVal → CleanResults V)
    (n i : ℕ) : rounds_trace rf n i [] = [] := by
  cases n with
  | zero => rfl
  | succ n => rfl

theorem rounds_trace_length {V : Type} (rf : ℕ → List PyVal → CleanResults V) :
    ∀ (n i : ℕ) (args : List PyVal),
      (rounds_trace rf n i args).length ≤ n := by
  intro n
  induction n with
  | zero => intro i args; simp [rounds_trace]
  | succ n ih =>
      intro i args
      simp only [rounds_trace]
      by_cases h : args.isEmpty
      · rw [if_pos h]; simp
      · rw [if_neg h]
        simpa using Nat.succ_le_succ (ih (i + 1) _)

theorem rounds_trace_early_stop {V : Type}
    (rf : ℕ → List PyVal → CleanResults V) :
    ∀ (n i : ℕ) (args : List PyVal) (j : ℕ),
      j + 1 < (rounds_trace rf n i args).length →
      anyDict ((rounds_trace rf n i args).getD j ⟨[], []⟩).errors = true := by
  intro n
  induction n with
  | zero => intro i args j h; simp [rounds_trace] at h
  | succ n ih =>
      intro i args j h
      simp only [rounds_trace] at h ⊢
      by_cases he : args.isEmpty
      · rw [if_pos he] at h
        simp at h
      · rw [if_neg he] at h ⊢
        cases j with
        | zero =>
            cases hx : anyDict (rf i args).errors with
            | true => simpa using hx
            | false =>
                rw [hx] at h
                rw [if_neg (by simp)] at h
                rw [rounds_trace_nil_args] at h
                simp at h
        | succ j =>
            simp only [List.length_cons, List.getD_cons_succ] at h ⊢
            exact ih (i + 1) _ j (by omega)

/-- Claim C10: calling `run_pool` with an empty argument list makes the
round loop body never execute, so the post-loop read of `return_values`
raises an uncaught `NameError` (modelled as `none`) for every collaborator
and every `max_repeat` — it does not return the empty result. -/
theorem c10_run_pool_empty_args :
    ∀ (V : Type) (rf : ℕ → List PyVal → CleanResults V) (n : ℕ),
      run_pool rf n [] = none
      ∧ run_pool rf n [] ≠ some ⟨[], []⟩ := by
  intro V rf n
  cases n with
  | zero => exact ⟨rfl, by intro h; cases h⟩
  | succ n => exact ⟨rfl, by intro h; cases h⟩

/-- Claim C2 counterexample: a round whose only failure is recorded under
the falsy key `0` is treated by `if any(return_values['errors'])` as *no
failure*: the loop stops and the failure is silently dropped, so the
returned `'errors'` partition is empty although the last round's failures
are not. -/
theorem c2_counterexample :
    run_pool (fun _ _ => CleanResults.mk [(PyVal.str "d", (42 : ℕ))]
        [(PyVal.int 0, "boom")]) 3 [PyVal.int 1]
      = some ⟨[(PyVal.str "d", 42)], []⟩
    ∧ (CleanResults.mk [(PyVal.str "d", (42 : ℕ))]
        [(PyVal.int 0, "boom")]).errors ≠ [] := by
  constructor
  · rfl
  · intro h
    cases h

/-- Claim C2 (amended): for every collaborator, *nonempty* argument list and
`max_repeat ≥ 1`, `run_pool` returns (never raises): it executes at most
`max_repeat` rounds, each later round's backlog being the key list of the
previous round's failures; before the last executed round every round had
some *truthy* failed key; the result's `'data'` is the successes
accumulated across all rounds and its `'errors'` is the last round's
failures when some failed key is truthy — and is empty otherwise (failures
under entirely falsy keys, e.g. the key `0`, are dropped, and with an empty
argument list the source raises `NameError` instead of returning). -/
theorem c2_amended {V : Type} (rf : ℕ → List PyVal → CleanResults V)
    (max_repeat : ℕ) (args : List PyVal)
    (hrep : 1 ≤ max_repeat) (hargs : args ≠ []) :
    run_pool rf max_repeat args
      = some ⟨(rounds_trace rf max_repeat 0 args).foldl
            (fun a r => dUpdate a r.data) [],
          if anyDict ((rounds_trace rf max_repeat 0 args).getLastD
              ⟨[], []⟩).errors
          then dUpdate [] ((rounds_trace rf max_repeat 0 args).getLastD
              ⟨[], []⟩).errors
          else []⟩
    ∧ rounds_trace rf max_repeat 0 args ≠ []
    ∧ (rounds_trace rf max_repeat 0 args).length ≤ max_repeat
    ∧ (∀ j, j + 1 < (rounds_trace rf max_repeat 0 args).length →
        anyDict ((rounds_trace rf max_repeat 0 args).getD j
          ⟨[], []⟩).errors = true) := by
  obtain ⟨n, rfl⟩ : ∃ n, max_repeat = n + 1 := ⟨max_repeat - 1, by omega⟩
  have hne2 : rounds_trace rf (n + 1) 0 args ≠ [] := by
    simp only [rounds_trace]
    rw [if_neg (by simpa [List.isEmpty_iff] using hargs)]
    simp
  refine ⟨?_, hne2, rounds_trace_length rf (n + 1) 0 args,
    fun j hj => rounds_trace_early_stop rf (n + 1) 0 args j hj⟩
  unfold run_pool
  rw [run_pool_loop_trace, lastRound_of_ne_nil _ _ hne2]

/-- Claim C2 amended, witness: one failure-free round on the backlog `[1]`
with `max_repeat = 1`. -/
theorem c2_amended_witness :
    1 ≤ 1 ∧ ([PyVal.int 1] : List PyVal) ≠ []
    ∧ run_pool (V := ℕ) (fun _ _ => ⟨[], []⟩) 1 [PyVal.int 1]
      = some ⟨(rounds_trace (V := ℕ) (fun _ _ => ⟨[], []⟩) 1 0
            [PyVal.int 1]).foldl (fun a r => dUpdate a r.data) [],
          if anyDict ((rounds_trace (V := ℕ) (fun _ _ => ⟨[], []⟩) 1 0
              [PyVal.int 1]).getLastD ⟨[], []⟩).errors
          then dUpdate [] ((rounds_trace (V := ℕ) (fun _ _ => ⟨[], []⟩) 1 0
              [PyVal.int 1]).getLastD ⟨[], []⟩).errors
          else []⟩ :=
  ⟨le_refl 1, by simp,
    (c2_amended (fun _ _ => ⟨[], []⟩) 1 [PyVal.int 1] (le_refl 1)
      (by simp)).1⟩

/-! ### The feeder loop `_extend_queue`

One loop iteration per pacing tick.  The batch-size decided at each tick
(`determine_batch_size`, driven by the concurrently written duration deque)
is supplied as one `ℕ` per tick.  `next_item` is a Python local that
persists across iterations: on the tick after the backlog empties the
source sets the queuing event but still re-registers/re-puts the *stale*
`next_item`; on a first tick with an empty backlog `next_item` is unbound
and the source raises `NameError`. -/

structure FeederState where
  funcArgs : List PyVal
  batched : List PyVal
  pushed : List (List PyVal)
  nextItem : Option (List PyVal)
deriving DecidableEq

inductive FeederOutcome
  | ok (s : FeederState)
  | nameError (s : FeederState)
  | fuelOut (s : FeederState)
deriving DecidableEq

/-- One iteration of the `while not self._queuing_event.wait(...)` body:
compute `next_item` (the next `batch_size` arguments, or the stale previous
item when the backlog is empty — also setting the event), register its key
in `batched_requests` when `batch_size > 1`, drop the slice from the
backlog, and put the item on the queue.  `none` models the `NameError` on
an unbound `next_item`. -/
def feederStep (b : ℕ) (s : FeederState) : Option (FeederState × Bool) :=
  match (if s.funcArgs.isEmpty then s.nextItem
         else some (s.funcArgs.take b)) with
  | none => none
  | some item =>
      some (⟨s.funcArgs.drop b,
             if 1 < b then s.batched ++ [to_key (PyVal.list item)]
             else s.batched,
             s.pushed ++ [item],
             some item⟩,
            s.funcArgs.isEmpty)

/-- Run the feeder loop, one decision per tick; the loop exits (`ok`) on
the first iteration that set the queuing event. -/
def feederRun : List ℕ → FeederState → FeederOutcome
  | [], s => .fuelOut s
  | b :: ds, s =>
    match feederStep b s with
    | none => .nameError s
    | some (s', true) => .ok s'
    | some (s', false) => feederRun ds s'

/-- Feeder state at the start of a round. -/
def feederInit (args : List PyVal) : FeederState := ⟨args, [], [], none⟩

/-- Claim C6: the feeder violates the claim.  With backlog `[1]` and
singleton batches, after the backlog empties the loop runs one more
iteration that sets the queuing event but *re-puts the stale previous
batch*: the batch `[1]` is pushed twice, so its argument is not sliced
exactly once.  With an initially empty backlog the final `put(next_item)`
raises `NameError` instead of exiting cleanly. -/
theorem c6_code_bug_eval :
    feederRun [1, 1, 1] (feederInit [PyVal.int 1])
      = FeederOutcome.ok ⟨[], [], [[PyVal.int 1], [PyVal.int 1]],
          some [PyVal.int 1]⟩
    ∧ feederRun [1] (feederInit []) = FeederOutcome.nameError (feederInit []) := by
  exact ⟨by decide, by decide⟩

/-- Claim C8 counterexample: backlog `[1]` while the decided batch size is
`2` — every pushed batch has a single Argument, yet the feeder registers
its canonical key `(1,)` in `batched_requests` (twice, via the stale final
iteration): a single-Argument batch *is* registered as batched. -/
theorem c8_counterexample :
    feederRun [2, 2] (feederInit [PyVal.int 1])
      = FeederOutcome.ok ⟨[],
          [PyVal.tuple [PyVal.int 1], PyVal.tuple [PyVal.int 1]],
          [[PyVal.int 1], [PyVal.int 1]], some [PyVal.int 1]⟩
    ∧ ([[PyVal.int 1], [PyVal.int 1]] : List (List PyVal)).all
        (fun b => b.length == 1) = true := by
  exact ⟨by decide, by decide⟩

/-- Claim C8 (amended): at any feeder iteration with a nonempty backlog,
the batch's key is registered exactly when the *decided* batch size exceeds
one; since a slice of size `> 1` requires a decision `> 1`, every
multi-Argument batch is registered — but a final short batch of a single
remaining Argument is registered too whenever the decision exceeds one. -/
theorem c8_amended (s : FeederState) (b : ℕ) (hne : s.funcArgs ≠ []) :
    ∀ (s' : FeederState) (ev : Bool), feederStep b s = some (s', ev) →
    ev = false
    ∧ s'.pushed = s.pushed ++ [s.funcArgs.take b]
    ∧ s'.batched = (if 1 < b then
        s.batched ++ [to_key (PyVal.list (s.funcArgs.take b))] else s.batched)
    ∧ (1 < (s.funcArgs.take b).length →
        s'.batched = s.batched ++ [to_key (PyVal.list (s.funcArgs.take b))]) := by
  intro s' ev h
  have hempty : s.funcArgs.isEmpty = false := by
    rw [Bool.eq_false_iff]
    intro hcontra
    exact hne (List.isEmpty_iff.mp hcontra)
  unfold feederStep at h
  rw [hempty] at h
  simp only [Bool.false_eq_true, if_false] at h
  rcases Option.some.inj h with h4
  injection h4 with ha hb
  subst ha
  refine ⟨hb.symm, rfl, rfl, ?_⟩
  intro hlen
  have hb1 : 1 < b := by
    have := List.length_take b s.funcArgs
    omega
  rw [if_pos hb1]

/-- Claim C8 amended, witness: backlog `[1, 2]` with decision `2` — the
two-Argument batch is registered under its canonical key `(1, 2)`. -/
theorem c8_amended_witness :
    (feederInit [PyVal.int 1, PyVal.int 2]).funcArgs ≠ []
    ∧ feederStep 2 (feederInit [PyVal.int 1, PyVal.int 2])
      = some (⟨[], [PyVal.tuple [PyVal.int 1, PyVal.int 2]],
          [[PyVal.int 1, PyVal.int 2]], some [PyVal.int 1, PyVal.int 2]⟩, false)
    ∧ (FeederState.mk [] [PyVal.tuple [PyVal.int 1, PyVal.int 2]]
        [[PyVal.int 1, PyVal.int 2]] (some [PyVal.int 1, PyVal.int 2])).batched
      = (feederInit [PyVal.int 1, PyVal.int 2]).batched
        ++ [to_key (PyVal.list
            ((feederInit [PyVal.int 1, PyVal.int 2]).funcArgs.take 2))] :=
  ⟨by decide, by decide,
    (c8_amended (feederInit [PyVal.int 1, PyVal.int 2]) 2 (by decide)
      (FeederState.mk [] [PyVal.tuple [PyVal.int 1, PyVal.int 2]]
        [[PyVal.int 1, PyVal.int 2]] (some [PyVal.int 1, PyVal.int 2])) false
      (by decide)).2.2.2 (by decide)⟩

/-! ### Bounded dispatch queue capacity (`__init__` / `data_queue`)

The source computes `rate = Nrequests / period` in floats and
`Queue(maxsize=round(rate / 2))`.  For the integer `Nrequests` and `period`
the source is called with, `Nrequests / period / 2` is the exact fraction
`Nrequests / (2 * period)`, and Python 3 `round` is round-half-to-even;
both are modelled exactly in integer arithmetic (float rounding error for
non-representable quotients is outside the model).  A `Queue.put` with all
workers paused blocks iff `0 < maxsize ≤ qsize()`; in particular
`maxsize = 0` means *unbounded*. -/

/-- Python 3 `round(num / den)` (round-half-to-even) for `den > 0`, in
exact integer arithmetic. -/
def pyRound (num den : ℤ) : ℤ :=
  if 2 * (num - Int.fdiv num den * den) = den then
    (if 2 ∣ Int.fdiv num den then Int.fdiv num den else Int.fdiv num den + 1)
  else if 2 * (num - Int.fdiv num den * den) < den then Int.fdiv num den
  else Int.fdiv num den + 1

/-- `self.data_queue = Queue(maxsize=round(rate / 2))` with
`rate = Nrequests / period`. -/
def queue_maxsize (Nrequests period : ℤ) : ℤ :=
  pyRound Nrequests (2 * period)

/-- One `put` on a `queue.Queue` of the given `maxsize` holding `occ`
items, with no consumer running: `none` when the producer blocks. -/
def qput (maxsize : ℤ) (occ : ℕ) : Option ℕ :=
  if 0 < maxsize ∧ maxsize ≤ (occ : ℤ) then none else some (occ + 1)

/-- How many of `k` attempted puts succeed before the first block, starting
from occupancy `occ`. -/
def pushes_until_block (maxsize : ℤ) : ℕ → ℕ → ℕ
  | 0, _ => 0
  | Nat.succ k, occ =>
    match qput maxsize occ with
    | some occ2 => pushes_until_block maxsize k occ2 + 1
    | none => 0

theorem pushes_until_block_pos (m : ℤ) (hm : 0 < m) :
    ∀ (k occ : ℕ), occ ≤ m.toNat → m.toNat - occ ≤ k →
    pushes_until_block m k occ = m.toNat - occ := by
  intro k
  induction k with
  | zero =>
      intro occ _ h2
      show 0 = m.toNat - occ
      omega
  | succ k ih =>
      intro occ h1 h2
      show (match qput m occ with
        | some occ2 => pushes_until_block m k occ2 + 1
        | none => 0) = m.toNat - occ
      unfold qput
      by_cases hfull : m ≤ (occ : ℤ)
      · rw [if_pos ⟨hm, hfull⟩]
        show 0 = m.toNat - occ
        omega
      · rw [if_neg (by tauto)]
        show pushes_until_block m k (occ + 1) + 1 = m.toNat - occ
        rw [ih (occ + 1) (by omega) (by omega)]
        omega

theorem pushes_until_block_unbounded (m : ℤ) (hm : m ≤ 0) :
    ∀ (k occ : ℕ), pushes_until_block m k occ = k := by
  intro k
  induction k with
  | zero => intro occ; rfl
  | succ k ih =>
      intro occ
      show (match qput m occ with
        | some occ2 => pushes_until_block m k occ2 + 1
        | none => 0) = k + 1
      unfold qput
      rw [if_neg (by omega)]
      show pushes_until_block m k (occ + 1) + 1 = k + 1
      rw [ih (occ + 1)]

/-- Claim C5 counterexample: with `Nrequests = 5`, `period = 1` the source
capacity is `round(2.5) = 2` (Python rounds half to even), not
`⌈2.5⌉ = 3`: with workers paused the feeder blocks after 2 pushes, not 3. -/
theorem c5_counterexample :
    queue_maxsize 5 1 = 2
    ∧ (⌈(5 : ℚ) / 1 / 2⌉ : ℤ) = 3
    ∧ pushes_until_block (queue_maxsize 5 1) 3 0 = 2
    ∧ (2 : ℤ) ≠ 3 := by
  refine ⟨by decide, ?_, by decide, by decide⟩
  rw [Int.ceil_eq_iff]
  norm_num

/-- Claim C5 (amended): the `data_queue` capacity is
`round-half-to-even(Nrequests / period / 2)` — not its ceiling.  When that
capacity is positive, with all workers paused the feeder completes exactly
`capacity` pushes and blocks on the next; when it is zero (e.g.
`Nrequests / period < 1`), `Queue(maxsize=0)` is unbounded and the feeder
never blocks. -/
theorem c5_amended (Nrequests period : ℤ) (k : ℕ) :
    (0 < queue_maxsize Nrequests period →
      (queue_maxsize Nrequests period).toNat ≤ k →
      pushes_until_block (queue_maxsize Nrequests period) k 0
        = (queue_maxsize Nrequests period).toNat)
    ∧ (queue_maxsize Nrequests period ≤ 0 →
      pushes_until_block (queue_maxsize Nrequests period) k 0 = k) := by
  constructor
  · intro hm hk
    have := pushes_until_block_pos (queue_maxsize Nrequests period) hm k 0
      (by omega) (by omega)
    simpa using this
  · intro hm
    exact pushes_until_block_unbounded _ hm k 0

/-- Claim C5 amended, witness: `Nrequests = 10`, `period = 1` gives
capacity `5`; the feeder blocks after exactly 5 pushes. -/
theorem c5_amended_witness :
    0 < queue_maxsize 10 1
    ∧ (queue_maxsize 10 1).toNat ≤ 5
    ∧ pushes_until_block (queue_maxsize 10 1) 5 0 = (queue_maxsize 10 1).toNat :=
  ⟨by decide, by decide, (c5_amended 10 1 5).1 (by decide) (by decide)⟩

/-! ### Adaptive batch size (`determine_batch_size` and the duration deque)

`self.min_requests = 10`; `request_durations = deque(maxlen=10)`; the
decision resets `batch_size = 1` and promotes it to `max_batch_size` only
when the deque holds exactly `min_requests` samples whose
`statistics.median` is below `max_dur` (default `1`).  Float durations are
modelled as `ℚ`. -/

/-- `self.min_requests` (the source comment says 15, the code sets 10). -/
def min_requests : ℕ := 10

/-- `statistics.median`: middle of the sorted data, or the mean of the two
middle values for an even count.  (On the empty list the source raises;
here it is never applied to one.) -/
def medianQ (l : List ℚ) : ℚ :=
  if l.length % 2 = 1 then (l.insertionSort (· ≤ ·)).getD (l.length / 2) 0
  else ((l.insertionSort (· ≤ ·)).getD (l.length / 2 - 1) 0
    + (l.insertionSort (· ≤ ·)).getD (l.length / 2) 0) / 2

/-- `deque(maxlen).append`: append and evict from the left down to
`maxlen` entries. -/
def deque_append (maxlen : ℕ) (w : List ℚ) (d : ℚ) : List ℚ :=
  (w ++ [d]).drop ((w ++ [d]).length - maxlen)

/-- `RateLimitedRequestsThreadPool.determine_batch_size`, returning the new
`self.batch_size`. -/
def determine_batch_size (max_batch_size : ℕ) (request_durations : List ℚ)
    (max_dur : ℚ) : ℕ :=
  if request_durations.length = min_requests
      ∧ medianQ request_durations < max_dur
  then max_batch_size else 1

theorem sorted_median_components_lt (t : ℚ) (s : List ℚ)
    (hsort : s.Sorted (· ≤ ·)) (hslen : s.length = 10)
    (hcount : 6 ≤ s.countP (fun x => decide (x < t))) :
    s.getD 4 0 < t ∧ s.getD 5 0 < t := by
  have h4 : 4 < s.length := by omega
  have h5 : 5 < s.length := by omega
  rw [List.getD_eq_getElem s 0 h4, List.getD_eq_getElem s 0 h5]
  have hx5 : s[5] < t := by
    by_contra hge
    push_neg at hge
    have hallge : ∀ y ∈ s.drop 5, t ≤ y := by
      have hdropsorted : (s.drop 5).Pairwise (· ≤ ·) :=
        hsort.sublist (List.drop_sublist 5 s)
      have hdropeq : s.drop 5 = s[5] :: s.drop 6 := List.drop_eq_getElem_cons h5
      intro y hy
      rw [hdropeq] at hy hdropsorted
      rcases List.mem_cons.mp hy with rfl | hy2
      · exact hge
      · exact le_trans hge ((List.pairwise_cons.mp hdropsorted).1 y hy2)
    have hcount0 : (s.drop 5).countP (fun x => decide (x < t)) = 0 := by
      rw [List.countP_eq_zero]
      intro a ha
      simpa using not_lt.mpr (hallge a ha)
    have hsplit : (s.take 5).countP (fun x => decide (x < t))
        + (s.drop 5).countP (fun x => decide (x < t))
        = s.countP (fun x => decide (x < t)) := by
      rw [← List.countP_append]
      rw [List.take_append_drop]
    have htake : (s.take 5).countP (fun x => decide (x < t))
        ≤ (s.take 5).length := List.countP_le_length _
    have htlen : (s.take 5).length = 5 := by
      rw [List.length_take]
      omega
    omega
  refine ⟨?_, hx5⟩
  have h45 : s.get ⟨4, h4⟩ ≤ s.get ⟨5, h5⟩ :=
    List.Sorted.rel_get_of_lt hsort (by simp [Fin.lt_def])
  exact lt_of_le_of_lt h45 hx5

/-- If at least 6 of the 10 samples are below `t`, the window median is
below `t`. -/
theorem medianQ_lt_of_countP (t : ℚ) (l : List ℚ) (hlen : l.length = 10)
    (hcount : 6 ≤ l.countP (fun x => decide (x < t))) :
    medianQ l < t := by
  have hperm := List.perm_insertionSort (· ≤ ·) l
  have hsort := List.sorted_insertionSort (· ≤ ·) l
  have hslen : (l.insertionSort (· ≤ ·)).length = 10 := by
    rw [hperm.length_eq, hlen]
  have hc2 : 6 ≤ (l.insertionSort (· ≤ ·)).countP (fun x => decide (x < t)) := by
    rw [hperm.countP_eq]
    exact hcount
  obtain ⟨h4, h5⟩ := sorted_median_components_lt t _ hsort hslen hc2
  rw [List.getD_eq_getElem?_getD] at h4 h5
  unfold medianQ
  rw [hlen]
  norm_num
  linarith

/-- Claim C4 (amended): when bulk mode is on, the decision yields
`max_batch_size` exactly when the deque holds `min_requests` samples with
median below the threshold, and `1` otherwise (binary, third conjunct).
After a full window of fast samples the next decision is `max_batch_size`;
but injecting one slow sample (`d ≥ t`) into a full fast window leaves nine
fast samples, the median stays below the threshold, and the very next
decision is *still* `max_batch_size` — not `1` as the claim states.  The
decision drops to `1` only once the window *median* reaches the
threshold. -/
theorem c4_amended (max_batch_size : ℕ) (w : List ℚ) (t d : ℚ)
    (hlen : w.length = 10) (hfast : ∀ x ∈ w, x < t) (_hslow : t ≤ d) :
    determine_batch_size max_batch_size w t = max_batch_size
    ∧ determine_batch_size max_batch_size (deque_append 10 w d) t
      = max_batch_size
    ∧ (∀ v : List ℚ, determine_batch_size max_batch_size v t = max_batch_size
        ∨ determine_batch_size max_batch_size v t = 1) := by
  have hcw : w.countP (fun x => decide (x < t)) = 10 := by
    rw [← hlen]
    refine List.countP_eq_length.mpr ?_
    intro a ha
    simpa using hfast a ha
  refine ⟨?_, ?_, ?_⟩
  · unfold determine_batch_size
    rw [if_pos ⟨by rw [hlen]; rfl,
      medianQ_lt_of_countP t w hlen (by omega)⟩]
  · have hda : deque_append 10 w d = w.drop 1 ++ [d] := by
      unfold deque_append
      rw [List.length_append, hlen]
      show (w ++ [d]).drop 1 = w.drop 1 ++ [d]
      exact List.drop_append_of_le_length (show 1 ≤ w.length by omega)
    have hlen2 : (w.drop 1 ++ [d]).length = 10 := by
      rw [List.length_append, List.length_drop, hlen]
      rfl
    have hcount2 : 6 ≤ (w.drop 1 ++ [d]).countP (fun x => decide (x < t)) := by
      rw [List.countP_append]
      have hdropcount : (w.drop 1).countP (fun x => decide (x < t))
          = (w.drop 1).length := by
        refine List.countP_eq_length.mpr ?_
        intro a ha
        simpa using hfast a (List.mem_of_mem_drop ha)
      rw [hdropcount, List.length_drop, hlen]
      omega
    unfold determine_batch_size
    rw [hda]
    rw [if_pos ⟨by rw [hlen2]; rfl,
      medianQ_lt_of_countP t _ hlen2 hcount2⟩]
  · intro v
    unfold determine_batch_size
    by_cases h : v.length = min_requests ∧ medianQ v < t
    · rw [if_pos h]
      exact Or.inl rfl
    · rw [if_neg h]
      exact Or.inr rfl

/-- Claim C4 counterexample: a full window of ten samples `0` (all below
the threshold `1`) yields `batch_size = 50` as claimed, but appending a
single slow sample `2 ≥ 1` leaves nine fast samples and a median of `0`,
so the very next decision is still `50` — not `1` as the claim states. -/
theorem c4_counterexample :
    determine_batch_size 50 (List.replicate 10 (0 : ℚ)) 1 = 50
    ∧ (List.replicate 10 (0 : ℚ)).all (fun x => decide (x < 1)) = true
    ∧ (1 : ℚ) ≤ 2
    ∧ determine_batch_size 50
        (deque_append 10 (List.replicate 10 (0 : ℚ)) 2) 1 = 50
    ∧ 50 ≠ 1 := by
  have hw : ∀ x ∈ List.replicate 10 (0 : ℚ), x < 1 := by
    intro x hx
    rw [List.eq_of_mem_replicate hx]
    exact zero_lt_one
  have hlenw : (List.replicate 10 (0 : ℚ)).length = 10 := by simp
  have hcw : 6 ≤ (List.replicate 10 (0 : ℚ)).countP
      (fun x => decide (x < 1)) := by
    have heq : (List.replicate 10 (0 : ℚ)).countP (fun x => decide (x < 1))
        = (List.replicate 10 (0 : ℚ)).length := by
      refine List.countP_eq_length.mpr ?_
      intro a ha
      simp [hw a ha]
    omega
  have h1 : determine_batch_size 50 (List.replicate 10 (0 : ℚ)) 1 = 50 := by
    unfold determine_batch_size
    rw [if_pos ⟨by simp [min_requests], medianQ_lt_of_countP 1 _ hlenw hcw⟩]
  have hda : deque_append 10 (List.replicate 10 (0 : ℚ)) 2
      = List.replicate 9 (0 : ℚ) ++ [2] := by
    unfold deque_append
    have : List.replicate 10 (0 : ℚ) = 0 :: List.replicate 9 (0 : ℚ) := rfl
    rw [this]
    simp
  have hlen2 : (List.replicate 9 (0 : ℚ) ++ [(2 : ℚ)]).length = 10 := by simp
  have hc2 : 6 ≤ (List.replicate 9 (0 : ℚ) ++ [(2 : ℚ)]).countP
      (fun x => decide (x < 1)) := by
    have h9 : (List.replicate 9 (0 : ℚ)).countP (fun x => decide (x < 1))
        = (List.replicate 9 (0 : ℚ)).length := by
      refine List.countP_eq_length.mpr ?_
      intro a ha
      rw [List.eq_of_mem_replicate ha]
      simp
    rw [List.countP_append, h9, List.length_replicate]
    omega
  have h4 : determine_batch_size 50
      (deque_append 10 (List.replicate 10 (0 : ℚ)) 2) 1 = 50 := by
    unfold determine_batch_size
    rw [hda]
    rw [if_pos ⟨by simp [min_requests], medianQ_lt_of_countP 1 _ hlen2 hc2⟩]
  refine ⟨h1, ?_, one_le_two, h4, by omega⟩
  rw [List.all_eq_true]
  intro x hx
  simp [hw x hx]

/-- Claim C4 amended, witness: the full fast window of ten `0` samples and
the slow sample `2` against threshold `1`, via the amended theorem. -/
theorem c4_amended_witness :
    determine_batch_size 50 (List.replicate 10 (0 : ℚ)) 1 = 50
    ∧ determine_batch_size 50
        (deque_append 10 (List.replicate 10 (0 : ℚ)) 2) 1 = 50 :=
  ⟨(c4_amended 50 (List.replicate 10 (0 : ℚ)) 1 2 (by simp)
      (fun x hx => by rw [List.eq_of_mem_replicate hx]; exact zero_lt_one)
      one_le_two).1,
   (c4_amended 50 (List.replicate 10 (0 : ℚ)) 1 2 (by simp)
      (fun x hx => by rw [List.eq_of_mem_replicate hx]; exact zero_lt_one)
      one_le_two).2.1⟩
